import Mathlib

set_option maxRecDepth 100000
set_option maxHeartbeats 2000000

/-!
Verification of the RAG document-processing pipeline
(`rag_pipeline/document_processor.py`, `rag_pipeline/pipeline_manager.py`).

Text is modelled as `List Char`.  Python string operations used by the code
(`str.strip`, `str.rfind`, slicing) are embedded as executable Lean functions
with the same semantics on the relevant inputs.
-/

/-- Python's default whitespace set for `str.strip()` (ASCII part):
space, tab, newline, carriage return, vertical tab, form feed. -/
def pyIsSpace (c : Char) : Bool :=
  c = ' ' || c = '\t' || c = '\n' || c = '\r' || c = '\x0b' || c = '\x0c'

/-- Python `str.strip()`: remove leading and trailing whitespace. -/
def pyStrip (t : List Char) : List Char :=
  ((t.dropWhile pyIsSpace).reverse.dropWhile pyIsSpace).reverse

/-- Helper for `rfindSpace`: scan indices `n-1, n-2, ...` downwards and return
the first (i.e. highest) index `i ≥ a` with `t[i] = ' '`. -/
def rfindSpaceAux (t : List Char) (a : Nat) : Nat → Option Nat
  | 0 => none
  | n + 1 =>
    if a ≤ n ∧ t.get? n = some ' ' then some n else rfindSpaceAux t a n

/-- Python `text.rfind(' ', a, b)`: highest index `i` with `a ≤ i < b`,
`i < len(text)` and `text[i] = ' '`; `none` when there is no such index
(Python returns `-1`, used only via the comparison `space_pos > start`). -/
def rfindSpace (t : List Char) (a b : Nat) : Option Nat :=
  rfindSpaceAux t a (min b t.length)

/-- The end of the chunk window beginning at `start`
(`document_processor.py` lines 110-117): `end = start + size`; if that is
strictly inside the text, and the last space in `[start, end)` lies strictly
after `start`, the window is cut at that space. -/
def chunkEnd (t : List Char) (size start : Nat) : Nat :=
  let e := start + size
  if e < t.length then
    match rfindSpace t start e with
    | some sp => if start < sp then sp else e
    | none => e
  else e

/-- Embedding of `document_processor.py` line 124:
`start = max(start + self.chunk_size - self.chunk_overlap, start + 1)`.
With `Nat` truncated subtraction `start + size - overlap` agrees with the
Python integer value whenever that value is at least `start + 1`, and the
`max` makes the two coincide in all cases. -/
def nextStart (size overlap start : Nat) : Nat :=
  max (start + size - overlap) (start + 1)

/-- The `while start < len(text)` loop of `chunk_text`
(`document_processor.py` lines 109-128), run for at most `fuel` iterations.
Each iteration emits `text[start:end].strip()` when nonempty and advances
`start` by `nextStart`; the Python `if start >= len(text): break` at the
bottom is equivalent to re-checking the loop condition.  Since `start`
strictly increases each iteration, `fuel = len(text) - start` always
suffices (`chunkLoopF_fuel_irrel` below), so the fuel is an embedding artifact
only. -/
def chunkLoopF (t : List Char) (size overlap : Nat) :
    Nat → Nat → List (List Char)
  | _, 0 => []
  | start, fuel + 1 =>
    if start < t.length then
      let e := chunkEnd t size start
      let chunk := pyStrip ((t.drop start).take (e - start))
      let rest := chunkLoopF t size overlap (nextStart size overlap start) fuel
      if chunk.isEmpty then rest else chunk :: rest
    else []

/-- The full `chunk_text` loop: `fuel = len(text)` iterations are enough to
reach `start ≥ len(text)`. -/
def chunkLoop (t : List Char) (size overlap start : Nat) : List (List Char) :=
  chunkLoopF t size overlap start (t.length - start)

/-- Embedding of `DocumentProcessor.chunk_text` (`document_processor.py` lines 92-130),
parameterised by `size` and `overlap`.  The Python guard
`if not text or len(text.strip()) == 0: return []` collapses to the single
test `text.strip() == ""` because an empty string strips to itself. -/
def chunk_text (t : List Char) (size overlap : Nat) : List (List Char) :=
  if (pyStrip t).isEmpty then []
  else
    let cs := chunkLoop t size overlap 0
    if cs.isEmpty then [t.take size] else cs

/-- Specialization of `chunk_text` at the configured defaults `chunk_size = 400`,
`chunk_overlap = 50` (`DocumentProcessor.__init__`, lines 77-78). -/
def chunkText (t : List Char) : List (List Char) :=
  chunk_text t 400 50

/-- The same loop as `chunkLoopF`, recording the window `(start, end)` of
each emitted chunk instead of its text. -/
def chunkSpansF (t : List Char) (size overlap : Nat) :
    Nat → Nat → List (Nat × Nat)
  | _, 0 => []
  | start, fuel + 1 =>
    if start < t.length then
      let e := chunkEnd t size start
      let chunk := pyStrip ((t.drop start).take (e - start))
      let rest := chunkSpansF t size overlap (nextStart size overlap start) fuel
      if chunk.isEmpty then rest else (start, e) :: rest
    else []

/-- Windows of the emitted chunks at the configured defaults. -/
def chunkSpans (t : List Char) : List (Nat × Nat) :=
  chunkSpansF t 400 50 0 t.length

/-- Number of iterations performed by the `chunk_text` loop within the given
fuel bound. -/
def chunkItersF (t : List Char) (size overlap : Nat) : Nat → Nat → Nat
  | _, 0 => 0
  | start, fuel + 1 =>
    if start < t.length then
      chunkItersF t size overlap (nextStart size overlap start) fuel + 1
    else 0

/-- Concatenation of a chunk list's tail with each chunk's leading
`overlap` characters removed. -/
def dechunkTail (overlap : Nat) : List (List Char) → List Char
  | [] => []
  | c :: rest => c.drop overlap ++ dechunkTail overlap rest

/-- Concatenation of all chunks with the overlapping leading `overlap`
characters of every successor chunk removed (the reconstruction described in
the spec's coverage property). -/
def dechunk (overlap : Nat) : List (List Char) → List Char
  | [] => []
  | c :: rest => c ++ dechunkTail overlap rest

/-- An input with no whitespace characters at all (every character fails
`pyIsSpace`). -/
def NoWhite (t : List Char) : Prop :=
  ∀ c ∈ t, pyIsSpace c = false

/-- Embedding of `DocumentProcessor.vector_dimensions` (`document_processor.py` line 73):
hard-coded to the OpenAI `text-embedding-3-small` output dimensionality. -/
def vector_dimensions : Nat := 1536

/-- One row inserted into the `documents` table by `store_document_chunks`
(`document_processor.py` lines 331-344): the chunk text, the parent document
id and chunk index carried in the row's metadata, and the embedding vector,
stored exactly as provided. -/
structure ChunkRecord where
  content : List Char
  document_id : String
  chunk_index : Nat
  embedding : List Float

/-- Embedding of `DocumentProcessor.store_document_chunks` (lines
317-356), modelled as the list of rows it inserts.  The Python code zips
`chunks` with `embeddings`, enumerates, and builds one row per pair; it
performs no check on the embeddings (in particular none on their
dimensionality) before handing the rows to the external database client. -/
def store_document_chunks (document_id : String) (chunks : List (List Char))
    (embeddings : List (List Float)) : List ChunkRecord :=
  (List.zip chunks embeddings).enum.map fun p =>
    { content := p.2.1
      document_id := document_id
      chunk_index := p.1
      embedding := p.2.2 }

/-- Embedding of `DocumentProcessor.create_embeddings` (lines
132-157).  The external embedding endpoint is modelled by `provider`
(`none` = the call raised).  On failure the code builds, for each input
text, `np.random.uniform(-1, 1, self.vector_dimensions)`: numpy's documented
behavior is an array of exactly `vector_dimensions` pseudo-random floats,
modelled here as `vector_dimensions` samples of the abstract generator
`rng`.  The boolean output records whether the fallback warning was
printed. -/
def create_embeddings (provider : List String → Option (List (List Float)))
    (rng : Nat → Nat → Float) (texts : List String) :
    List (List Float) × Bool :=
  match provider texts with
  | some vecs => (vecs, false)
  | none =>
    ((List.range texts.length).map fun i =>
      (List.range vector_dimensions).map (rng i), true)

/-- Python `str.lower()` on one character (ASCII range, the relevant case
for the content types used by the code). -/
def pyLower (c : Char) : Char :=
  if 'A' ≤ c ∧ c ≤ 'Z' then Char.ofNat (c.toNat + 32) else c

/-- Embedding of `DocumentProcessor.generate_document_id` (lines
159-183), with strings as `List Char`.  The MD5 hex digest of the content
(external `hashlib` call) is modelled by the abstract `md5hex`; `timestamp`
is the `datetime.now().strftime("%Y%m%d_%H%M%S")` string taken at call
time; `content_type` models `metadata.get('content_type', 'doc')`;
`doc_type[:3]` is `List.take 3` and `content_hash[:8]` is `List.take 8`. -/
def generate_document_id (md5hex : List Char → List Char)
    (content : List Char) (content_type : Option (List Char))
    (timestamp : List Char) : List Char :=
  let content_hash := md5hex content
  let doc_type := (content_type.getD ['d', 'o', 'c']).map pyLower
  let pfx := doc_type.take 3
  pfx ++ '_' :: content_hash.take 8 ++ '_' :: timestamp

/-- Database operations issued by `process_document`, in program order. -/
inductive DbOp where
  /-- `delete_existing_document`: delete from `documents` where
  `metadata->>document_id` matches (line 194). -/
  | deleteChunks (document_id : List Char)
  /-- `delete_existing_document`: delete from `document_metadata` by id
  (line 197). -/
  | deleteMetadata (document_id : List Char)
  /-- `store_document_metadata`: insert into `document_metadata`
  (line 310). -/
  | insertMetadata (document_id : List Char)
  /-- `store_document_chunks`: insert `n` chunk rows into `documents`
  (lines 346-350). -/
  | insertChunks (document_id : List Char) (n : Nat)
deriving DecidableEq

/-- Embedding of `DocumentProcessor.process_document` (lines
204-258) on the success path of its external calls, modelled as the ordered
list of database operations it issues plus its success flag.  `extracted`
stands for the result of the subclass `extract_text`; embeddings involve no
database operation. -/
def process_document_ops (md5hex : List Char → List Char)
    (content : List Char) (content_type : Option (List Char))
    (timestamp : List Char) (extracted : List Char) : List DbOp × Bool :=
  let document_id := generate_document_id md5hex content content_type timestamp
  if (pyStrip extracted).isEmpty then ([], false)
  else
    let chunks := chunkText extracted
    if chunks.isEmpty then
      ([DbOp.deleteChunks document_id, DbOp.deleteMetadata document_id], false)
    else
      ([DbOp.deleteChunks document_id, DbOp.deleteMetadata document_id,
        DbOp.insertMetadata document_id,
        DbOp.insertChunks document_id chunks.length], true)

/-- Job status enum used by `RAGPipelineManager` (`pipeline_manager.py`). -/
inductive JobStatus where
  | queued
  | processing
  | completed
  | failed
deriving DecidableEq

/-- The status string stored in the job map. -/
def statusStr : JobStatus → String
  | .queued => "queued"
  | .processing => "processing"
  | .completed => "completed"
  | .failed => "failed"

/-- State of a `RAGPipelineManager`: the `active_jobs` map (restricted to the
status field, the part the claims concern) and the FIFO `processing_queue`
of job ids. -/
structure PMState where
  active_jobs : String → Option JobStatus
  queue : List String

/-- A freshly constructed manager: no jobs, empty queue
(`RAGPipelineManager.__init__`, lines 37-38). -/
def initPM : PMState :=
  { active_jobs := fun _ => none, queue := [] }

/-- Effect of `queue_item` (lines 69-101): record the job as `queued` and
append it to the processing queue. -/
def enqueueState (s : PMState) (id : String) : PMState :=
  { active_jobs := fun j => if j = id then some .queued else s.active_jobs j
    queue := s.queue ++ [id] }

/-- Effect of the first half of a `_worker` iteration (lines 50-54):
pop the queue head and mark it `processing`. -/
def dequeueState (s : PMState) (id : String) (rest : List String) : PMState :=
  { active_jobs := fun j => if j = id then some .processing else s.active_jobs j
    queue := rest }

/-- Effect of the second half of a `_worker` iteration (lines 57-62):
record `completed` or `failed` according to the processing result. -/
def finishState (s : PMState) (id : String) (success : Bool) : PMState :=
  { active_jobs := fun j =>
      if j = id then some (if success then .completed else .failed)
      else s.active_jobs j
    queue := s.queue }

/-- One step of the pipeline manager.  `enqueue` requires the id to be
fresh, which models `uuid.uuid4()` (line 83) never colliding with an
existing job id.  `finish` applies to a job previously marked `processing`
by the worker that dequeued it. -/
inductive PMStep : PMState → PMState → Prop where
  | enqueue (s : PMState) (id : String) (h : s.active_jobs id = none) :
      PMStep s (enqueueState s id)
  | dequeue (s : PMState) (id : String) (rest : List String)
      (h : s.queue = id :: rest) :
      PMStep s (dequeueState s id rest)
  | finish (s : PMState) (id : String) (success : Bool)
      (h : s.active_jobs id = some .processing) :
      PMStep s (finishState s id success)

/-- States reachable from a freshly constructed manager. -/
inductive PMReachable : PMState → Prop where
  | init : PMReachable initPM
  | step {s s' : PMState} : PMReachable s → PMStep s s' → PMReachable s'

/-- The part of the job dict returned by `get_job_status` that the claims
concern. -/
structure JobStatusView where
  id : String
  status : String

/-- Embedding of `RAGPipelineManager.get_job_status` (lines 103-113):
`self.active_jobs.get(job_id, {'id': job_id, 'status': 'not_found'})`. -/
def get_job_status (s : PMState) (job_id : String) : JobStatusView :=
  match s.active_jobs job_id with
  | some st => { id := job_id, status := statusStr st }
  | none => { id := job_id, status := "not_found" }

/-! ### Helper lemmas: stripping -/

theorem dropWhile_eq_self_of_none {p : Char → Bool} {t : List Char}
    (h : ∀ c ∈ t, p c = false) : t.dropWhile p = t := by
  cases t with
  | nil => rfl
  | cons c rest => simp [List.dropWhile_cons, h c (List.mem_cons_self c rest)]

theorem length_dropWhile_le' (p : Char → Bool) (t : List Char) :
    (t.dropWhile p).length ≤ t.length := by
  induction t with
  | nil => simp
  | cons c rest ih =>
    by_cases hc : p c
    · simp only [List.dropWhile_cons, hc, if_true]
      exact Nat.le_trans ih (Nat.le_succ _)
    · simp [List.dropWhile_cons, hc]

theorem pyStrip_eq_self {t : List Char}
    (h : ∀ c ∈ t, pyIsSpace c = false) : pyStrip t = t := by
  unfold pyStrip
  rw [dropWhile_eq_self_of_none h,
    dropWhile_eq_self_of_none (fun c hc => h c (List.mem_reverse.mp hc)),
    List.reverse_reverse]

theorem pyStrip_length_le (t : List Char) :
    (pyStrip t).length ≤ t.length := by
  unfold pyStrip
  calc (((t.dropWhile pyIsSpace).reverse.dropWhile pyIsSpace).reverse).length
      = ((t.dropWhile pyIsSpace).reverse.dropWhile pyIsSpace).length := by
        rw [List.length_reverse]
    _ ≤ (t.dropWhile pyIsSpace).reverse.length := length_dropWhile_le' _ _
    _ = (t.dropWhile pyIsSpace).length := by rw [List.length_reverse]
    _ ≤ t.length := length_dropWhile_le' _ _

theorem pyStrip_sublist_mem {t : List Char} {c : Char}
    (h : c ∈ pyStrip t) : c ∈ t := by
  unfold pyStrip at h
  rw [List.mem_reverse] at h
  have h1 := List.dropWhile_sublist (l := (t.dropWhile pyIsSpace).reverse)
    (p := pyIsSpace)
  have h2 : c ∈ (t.dropWhile pyIsSpace).reverse := h1.mem h
  rw [List.mem_reverse] at h2
  exact (List.dropWhile_sublist (l := t) (p := pyIsSpace)).mem h2

/-! ### Helper lemmas: `rfind` -/

theorem rfindSpaceAux_sound {t : List Char} {a : Nat} {n q : Nat}
    (h : rfindSpaceAux t a n = some q) :
    a ≤ q ∧ q < n ∧ t.get? q = some ' ' := by
  induction n with
  | zero => simp [rfindSpaceAux] at h
  | succ n ih =>
    rw [rfindSpaceAux] at h
    split at h
    · rename_i hc
      injection h with h
      subst h
      exact ⟨hc.1, Nat.lt_succ_self _, hc.2⟩
    · have h2 := ih h
      exact ⟨h2.1, Nat.lt_succ_of_lt h2.2.1, h2.2.2⟩

theorem rfindSpaceAux_last {t : List Char} {a n q : Nat}
    (h : rfindSpaceAux t a n = some q) :
    ∀ j, q < j → j < n → a ≤ j → t.get? j ≠ some ' ' := by
  induction n with
  | zero => simp [rfindSpaceAux] at h
  | succ n ih =>
    rw [rfindSpaceAux] at h
    split at h
    · rename_i hc
      injection h with h
      subst h
      intro j hqj hjn _
      omega
    · rename_i hc
      intro j hqj hjn haj hsp
      rcases Nat.lt_succ_iff_lt_or_eq.mp hjn with hj | hj
      · exact ih h j hqj hj haj hsp
      · subst hj
        exact hc ⟨haj, hsp⟩

theorem rfindSpaceAux_complete {t : List Char} {a i : Nat} {n : Nat}
    (ha : a ≤ i) (hn : i < n) (hsp : t.get? i = some ' ') :
    ∃ q, rfindSpaceAux t a n = some q ∧ i ≤ q := by
  induction n with
  | zero => omega
  | succ n ih =>
    rw [rfindSpaceAux]
    split
    · exact ⟨n, rfl, by omega⟩
    · rename_i hc
      have hin : i ≠ n := fun he => hc (he ▸ ⟨ha, hsp⟩)
      exact ih (by omega)

theorem rfindSpace_eq_none_of_nospace {t : List Char} {a b : Nat}
    (h : ∀ c ∈ t, c ≠ ' ') : rfindSpace t a b = none := by
  unfold rfindSpace
  cases heq : rfindSpaceAux t a (min b t.length) with
  | none => rfl
  | some q =>
    have hs := rfindSpaceAux_sound heq
    exact absurd rfl (h ' ' (List.get?_mem hs.2.2))

/-! ### Helper lemmas: the chunk window -/

theorem NoWhite.no_space {t : List Char} (hw : NoWhite t) :
    ∀ c ∈ t, c ≠ ' ' := by
  intro c hc he
  subst he
  have := hw ' ' hc
  simp [pyIsSpace] at this

theorem chunkEnd_le (t : List Char) (size start : Nat) :
    chunkEnd t size start ≤ start + size := by
  simp only [chunkEnd]
  split
  · split
    · rename_i heq
      split
      · have hs := rfindSpaceAux_sound heq
        omega
      · exact Nat.le_refl _
    · exact Nat.le_refl _
  · exact Nat.le_refl _

theorem chunkEnd_nowhite {t : List Char} (hw : NoWhite t)
    (size start : Nat) : chunkEnd t size start = start + size := by
  simp only [chunkEnd]
  split
  · rw [rfindSpace_eq_none_of_nospace hw.no_space]
  · rfl

/-! ### Helper lemmas: the loop -/

theorem nextStart_gt (size overlap start : Nat) :
    start < nextStart size overlap start :=
  Nat.lt_of_lt_of_le (Nat.lt_succ_self start) (Nat.le_max_right _ _)

theorem nextStart_400_50 (start : Nat) :
    nextStart 400 50 start = start + 350 := by
  unfold nextStart
  rw [Nat.max_eq_left (by omega)]
  omega

theorem chunkLoopF_stop {t : List Char} {size overlap start : Nat}
    (h : ¬ start < t.length) :
    ∀ fuel, chunkLoopF t size overlap start fuel = [] := by
  intro fuel
  cases fuel with
  | zero => rfl
  | succ fuel => simp [chunkLoopF, h]

theorem chunkLoopF_fuel_irrel {t : List Char} {size overlap : Nat} :
    ∀ {f1 : Nat} {start f2 : Nat}, t.length - start ≤ f1 →
      t.length - start ≤ f2 →
      chunkLoopF t size overlap start f1 = chunkLoopF t size overlap start f2 := by
  intro f1
  induction f1 with
  | zero =>
    intro start f2 h1 h2
    have hs : ¬ start < t.length := by omega
    rw [chunkLoopF_stop hs, chunkLoopF_stop hs]
  | succ f1 ih =>
    intro start f2 h1 h2
    by_cases hs : start < t.length
    · cases f2 with
      | zero => omega
      | succ f2 =>
        simp only [chunkLoopF, hs, if_true]
        have hn := nextStart_gt size overlap start
        have hrec := @ih (nextStart size overlap start) f2
          (by omega) (by omega)
        rw [hrec]
    · rw [chunkLoopF_stop hs, chunkLoopF_stop hs]

theorem chunkLoopF_eq_chunkLoop {t : List Char} {size overlap start : Nat}
    {fuel : Nat} (h : t.length - start ≤ fuel) :
    chunkLoopF t size overlap start fuel = chunkLoop t size overlap start :=
  chunkLoopF_fuel_irrel h (Nat.le_refl _)

theorem chunkLoop_stop {t : List Char} {size overlap start : Nat}
    (h : ¬ start < t.length) : chunkLoop t size overlap start = [] :=
  chunkLoopF_stop h _

theorem chunkLoop_step {t : List Char} {start : Nat} (size overlap : Nat)
    (h : start < t.length) :
    chunkLoop t size overlap start =
      (let e := chunkEnd t size start
       let chunk := pyStrip ((t.drop start).take (e - start))
       let rest := chunkLoop t size overlap (nextStart size overlap start)
       if chunk.isEmpty then rest else chunk :: rest) := by
  unfold chunkLoop
  obtain ⟨f, hf⟩ : ∃ f, t.length - start = f + 1 := ⟨t.length - start - 1, by omega⟩
  rw [hf]
  simp only [chunkLoopF, h, if_true]
  have hn := nextStart_gt size overlap start
  rw [@chunkLoopF_fuel_irrel t size overlap f (nextStart size overlap start)
    (t.length - nextStart size overlap start) (by omega) (Nat.le_refl _)]

theorem chunkLoop_nowhite_step {t : List Char} (hw : NoWhite t) {start : Nat}
    (h : start < t.length) :
    chunkLoop t 400 50 start =
      ((t.drop start).take 400) :: chunkLoop t 400 50 (start + 350) := by
  rw [chunkLoop_step 400 50 h]
  have he : chunkEnd t 400 start = start + 400 := chunkEnd_nowhite hw 400 start
  simp only [he, nextStart_400_50]
  have harg : start + 400 - start = 400 := by omega
  rw [harg]
  have hsub : ∀ c ∈ (t.drop start).take 400, pyIsSpace c = false := fun c hc =>
    hw c (List.mem_of_mem_drop (List.mem_of_mem_take hc))
  rw [pyStrip_eq_self hsub]
  have hne : (t.drop start).take 400 ≠ [] := by
    intro hnil
    rw [List.take_eq_nil_iff] at hnil
    rcases hnil with h4 | hd
    · omega
    · rw [List.drop_eq_nil_iff] at hd
      omega
  simp [List.isEmpty_iff, hne]

theorem chunkLoopF_length_le {t : List Char} {size overlap : Nat} :
    ∀ {fuel start : Nat}, ∀ c ∈ chunkLoopF t size overlap start fuel,
      c.length ≤ size := by
  intro fuel
  induction fuel with
  | zero => intro start c hc; simp [chunkLoopF] at hc
  | succ fuel ih =>
    intro start c hc
    by_cases hs : start < t.length
    · simp only [chunkLoopF, hs, if_true] at hc
      split at hc
      · exact ih c hc
      · cases hc with
        | head =>
          calc (pyStrip ((t.drop start).take (chunkEnd t size start - start))).length
              ≤ ((t.drop start).take (chunkEnd t size start - start)).length :=
                pyStrip_length_le _
            _ ≤ chunkEnd t size start - start := by
                rw [List.length_take]; exact Nat.min_le_left _ _
            _ ≤ size := by have := chunkEnd_le t size start; omega
        | tail _ hc => exact ih c hc
    · rw [chunkLoopF_stop hs] at hc
      simp at hc

theorem dechunkTail_chunkLoop {t : List Char} (hw : NoWhite t) :
    ∀ {n : Nat} (s : Nat), t.length - s ≤ n → s < t.length →
      dechunkTail 50 (chunkLoop t 400 50 s) = t.drop (s + 50) := by
  intro n
  induction n with
  | zero => intro s h1 h2; omega
  | succ n ih =>
    intro s hle hlt
    rw [chunkLoop_nowhite_step hw hlt]
    by_cases h350 : s + 350 < t.length
    · rw [dechunkTail, ih (s + 350) (by omega) h350]
      rw [List.drop_take 400 50, List.drop_drop]
      have hdd : t.drop (s + 350 + 50) = (t.drop (s + 50)).drop 350 := by
        rw [List.drop_drop]
      rw [hdd]
      have h43 : (400 : Nat) - 50 = 350 := by omega
      rw [h43]
      exact List.take_append_drop 350 (t.drop (s + 50))
    · rw [chunkLoop_stop (by omega), dechunkTail, dechunkTail, List.append_nil]
      rw [List.drop_take 400 50, List.drop_drop]
      have h43 : (400 : Nat) - 50 = 350 := by omega
      rw [h43]
      exact List.take_of_length_le (by rw [List.length_drop]; omega)

theorem dechunk_chunkText_nowhite {t : List Char} (hw : NoWhite t)
    (hne : t ≠ []) : dechunk 50 (chunkText t) = t := by
  have hlen : 0 < t.length := List.length_pos.mpr hne
  unfold chunkText chunk_text
  rw [pyStrip_eq_self hw]
  have hie : t.isEmpty = false := by simp [List.isEmpty_iff, hne]
  simp only [hie, Bool.false_eq_true, if_false]
  rw [chunkLoop_nowhite_step hw hlen]
  simp only [List.isEmpty_cons, Bool.false_eq_true, if_false, Nat.zero_add,
    List.drop_zero]
  rw [dechunk]
  by_cases h350 : 350 < t.length
  · rw [dechunkTail_chunkLoop hw (n := t.length) 350 (by omega) h350]
    exact List.take_append_drop 400 t
  · rw [chunkLoop_stop (by omega), dechunkTail, List.append_nil]
    exact List.take_of_length_le (by omega)

theorem chunkSpansF_start_mult {t : List Char} :
    ∀ {fuel start : Nat}, ∀ p ∈ chunkSpansF t 400 50 start fuel,
      ∃ k, p.1 = start + 350 * k := by
  intro fuel
  induction fuel with
  | zero => intro start p hp; simp [chunkSpansF] at hp
  | succ fuel ih =>
    intro start p hp
    by_cases hs : start < t.length
    · simp only [chunkSpansF, hs, if_true, nextStart_400_50] at hp
      split at hp
      · obtain ⟨k, hk⟩ := ih p hp
        exact ⟨k + 1, by omega⟩
      · cases hp with
        | head => exact ⟨0, by omega⟩
        | tail _ hp =>
          obtain ⟨k, hk⟩ := ih p hp
          exact ⟨k + 1, by omega⟩
    · simp [chunkSpansF, hs] at hp

theorem chunkItersF_le {t : List Char} {size overlap : Nat} :
    ∀ {fuel start : Nat},
      chunkItersF t size overlap start fuel ≤ t.length - start := by
  intro fuel
  induction fuel with
  | zero => intro start; simp [chunkItersF]
  | succ fuel ih =>
    intro start
    by_cases hs : start < t.length
    · simp only [chunkItersF, hs, if_true]
      have h1 := @ih (nextStart size overlap start)
      have h2 := nextStart_gt size overlap start
      omega
    · simp [chunkItersF, hs]

theorem chunkLoopF_count_le_iters {t : List Char} {size overlap : Nat} :
    ∀ {fuel start : Nat},
      (chunkLoopF t size overlap start fuel).length ≤
        chunkItersF t size overlap start fuel := by
  intro fuel
  induction fuel with
  | zero => intro start; simp [chunkLoopF, chunkItersF]
  | succ fuel ih =>
    intro start
    by_cases hs : start < t.length
    · simp only [chunkLoopF, chunkItersF, hs, if_true]
      split
      · exact Nat.le_trans ih (Nat.le_succ _)
      · simpa using ih
    · simp [chunkLoopF, chunkItersF, hs]

theorem chunkLoopF_ne_nil {t : List Char} {size overlap : Nat} :
    ∀ {fuel start : Nat}, ∀ c ∈ chunkLoopF t size overlap start fuel,
      c ≠ [] := by
  intro fuel
  induction fuel with
  | zero => intro start c hc; simp [chunkLoopF] at hc
  | succ fuel ih =>
    intro start c hc
    by_cases hs : start < t.length
    · simp only [chunkLoopF, hs, if_true] at hc
      split at hc
      · exact ih c hc
      · rename_i hfalse
        cases hc with
        | head =>
          intro hnil
          exact hfalse (by rw [hnil]; rfl)
        | tail _ hc => exact ih c hc
    · rw [chunkLoopF_stop hs] at hc
      simp at hc

theorem chunkEnd_at_last_space {t : List Char} {s i : Nat}
    (hlen : s + 400 < t.length) (hsi : s < i) (hi400 : i < s + 400)
    (hsp : t.get? i = some ' ') :
    s < chunkEnd t 400 s ∧ chunkEnd t 400 s < s + 400 ∧
    t.get? (chunkEnd t 400 s) = some ' ' ∧
    ∀ j, chunkEnd t 400 s < j → j < s + 400 → t.get? j ≠ some ' ' := by
  have hmin : min (s + 400) t.length = s + 400 :=
    Nat.min_eq_left (Nat.le_of_lt hlen)
  obtain ⟨q, hq, hiq⟩ :=
    rfindSpaceAux_complete (n := s + 400) (Nat.le_of_lt hsi) hi400 hsp
  have hsq : s < q := Nat.lt_of_lt_of_le hsi hiq
  have hrf : rfindSpace t s (s + 400) = some q := by
    unfold rfindSpace
    rw [hmin]
    exact hq
  have hce : chunkEnd t 400 s = q := by
    simp only [chunkEnd]
    rw [if_pos hlen, hrf]
    simp [hsq]
  have hsound := rfindSpaceAux_sound hq
  refine ⟨by omega, by omega, by rw [hce]; exact hsound.2.2, ?_⟩
  intro j hqj hj400
  rw [hce] at hqj
  exact rfindSpaceAux_last hq j hqj hj400 (by omega)

/-! ### Claim theorems: chunking -/

/-- C3 (amended): each chunk window's start advances by
`size - overlap = 350` characters (clamped to advance at least 1), so every
emitted window start is a multiple of 350; and for input containing no
whitespace the chunks cover the input without gaps: concatenating them with
each successor's 50-character overlapping leading segment removed
reconstructs the text exactly.  For general inputs reconstruction fails
(see the counterexample): a chunk cut at a space boundary before the next
start loses the text in between. -/
theorem chunkText_advance_and_nowhite_coverage :
    ∀ t : List Char,
      (∀ p ∈ chunkSpans t, 350 ∣ p.1) ∧
      (NoWhite t → t ≠ [] → dechunk 50 (chunkText t) = t) := by
  intro t
  constructor
  · intro p hp
    obtain ⟨k, hk⟩ := chunkSpansF_start_mult p hp
    exact ⟨k, by omega⟩
  · intro hw hne
    exact dechunk_chunkText_nowhite hw hne

/-- Witness for `chunkText_advance_and_nowhite_coverage` at the concrete
input `"ab"`. -/
theorem chunkText_advance_and_nowhite_coverage_witness :
    (350 ∣ ((0, 400) : Nat × Nat).1) ∧
    dechunk 50 (chunkText ['a', 'b']) = ['a', 'b'] :=
  ⟨(chunkText_advance_and_nowhite_coverage ['a', 'b']).1 (0, 400) (by decide),
   (chunkText_advance_and_nowhite_coverage ['a', 'b']).2
     (by unfold NoWhite; decide) (by decide)⟩

/-- Counterexample to C3 as stated: for the 511-character input of 10 `a`s,
one space, and 500 `b`s, the first chunk is cut at the space (position 10)
but the next window starts at 350, so the `b`s at positions 11-349 appear in
no chunk: the input has 500 `b`s while the overlap-removed concatenation of
all chunks retains only 111, so no reconstruction is possible. -/
theorem chunkText_gap_counterexample :
    chunkText (List.replicate 10 'a' ++ ' ' :: List.replicate 500 'b') =
      [List.replicate 10 'a', List.replicate 161 'b'] ∧
    (List.replicate 10 'a' ++ ' ' :: List.replicate 500 'b').count 'b' = 500 ∧
    (dechunk 50 (chunkText
      (List.replicate 10 'a' ++ ' ' :: List.replicate 500 'b'))).count 'b'
      = 111 ∧
    dechunk 50 (chunkText
        (List.replicate 10 'a' ++ ' ' :: List.replicate 500 'b')) ≠
      List.replicate 10 'a' ++ ' ' :: List.replicate 500 'b' := by
  refine ⟨by decide, by decide, by decide, by decide⟩

/-- C4 (amended): a whitespace-free 1000-character input yields exactly 3
chunks, namely the windows starting at 0, 350 and 700, each of length at
most 400; the second window's start (350) lies within the last 50
characters of the first window's span `[0, 400)`.  For arbitrary
1000-character inputs the chunk count can be smaller (see the
counterexample). -/
theorem chunkText_1000_nowhite :
    ∀ t : List Char, t.length = 1000 → NoWhite t →
      chunkText t =
        [t.take 400, (t.drop 350).take 400, (t.drop 700).take 400] ∧
      (chunkText t).length = 3 ∧
      (∀ c ∈ chunkText t, c.length ≤ 400) ∧
      400 - 50 ≤ 350 ∧ 350 < 400 := by
  intro t hlen hw
  have h0 : 0 < t.length := by omega
  have hne : t ≠ [] := by
    intro h
    rw [h] at hlen
    simp at hlen
  have hloop : chunkLoop t 400 50 0 =
      [t.take 400, (t.drop 350).take 400, (t.drop 700).take 400] := by
    rw [chunkLoop_nowhite_step hw h0]
    have e1 : (0 : Nat) + 350 = 350 := by omega
    rw [e1, chunkLoop_nowhite_step hw (show 350 < t.length by omega)]
    have e2 : (350 : Nat) + 350 = 700 := by omega
    rw [e2, chunkLoop_nowhite_step hw (show 700 < t.length by omega)]
    have e3 : (700 : Nat) + 350 = 1050 := by omega
    rw [e3, chunkLoop_stop (by omega), List.drop_zero]
  have hct : chunkText t =
      [t.take 400, (t.drop 350).take 400, (t.drop 700).take 400] := by
    unfold chunkText chunk_text
    rw [pyStrip_eq_self hw]
    have hie : t.isEmpty = false := by simp [List.isEmpty_iff, hne]
    simp only [hie, Bool.false_eq_true, if_false, hloop]
    simp
  refine ⟨hct, by rw [hct]; rfl, ?_, by omega, by omega⟩
  intro c hc
  rw [hct] at hc
  simp only [List.mem_cons, List.not_mem_nil, or_false] at hc
  rcases hc with h | h | h <;>
    (subst h; rw [List.length_take]; exact Nat.min_le_left _ _)

/-- Witness for `chunkText_1000_nowhite` at the concrete input of 1000
`a`s. -/
theorem chunkText_1000_nowhite_witness :
    chunkText (List.replicate 1000 'a') =
      [(List.replicate 1000 'a').take 400,
       ((List.replicate 1000 'a').drop 350).take 400,
       ((List.replicate 1000 'a').drop 700).take 400] ∧
    (chunkText (List.replicate 1000 'a')).length = 3 :=
  ⟨(chunkText_1000_nowhite (List.replicate 1000 'a') (by simp)
      (fun c hc => by rw [List.eq_of_mem_replicate hc]; rfl)).1,
   (chunkText_1000_nowhite (List.replicate 1000 'a') (by simp)
      (fun c hc => by rw [List.eq_of_mem_replicate hc]; rfl)).2.1⟩

/-- Counterexample to C4 as stated: the 1000-character all-space input
yields 0 chunks, not 3. -/
theorem chunkText_1000_counterexample :
    (List.replicate 1000 ' ').length = 1000 ∧
    chunkText (List.replicate 1000 ' ') = [] := by
  refine ⟨by simp, by decide⟩

/-- C5 (amended): every chunk returned by `chunk_text` has length at most
the target size 400; and when the text remaining past a window's start
exceeds the size limit (`start + 400 < len`) and a space character occurs
strictly after the start and before the limit, the window ends exactly at
the last such space.  The boundary search is for the space character `' '`
only: other whitespace (tab, newline) does not trigger the break, so a
chunk may split mid-word despite such a whitespace boundary being available
(see the counterexample). -/
theorem chunkText_size_and_space_boundary :
    ∀ t : List Char,
      (∀ c ∈ chunkText t, c.length ≤ 400) ∧
      (∀ s i : Nat, s + 400 < t.length → s < i → i < s + 400 →
        t.get? i = some ' ' →
        s < chunkEnd t 400 s ∧ chunkEnd t 400 s < s + 400 ∧
        t.get? (chunkEnd t 400 s) = some ' ' ∧
        ∀ j, chunkEnd t 400 s < j → j < s + 400 →
          t.get? j ≠ some ' ') := by
  intro t
  constructor
  · intro c hc
    unfold chunkText chunk_text at hc
    split at hc
    · simp at hc
    · dsimp only at hc
      split at hc
      · simp only [List.mem_singleton] at hc
        subst hc
        rw [List.length_take]
        exact Nat.min_le_left _ _
      · exact chunkLoopF_length_le c hc
  · intro s i hlen hsi hi400 hsp
    exact chunkEnd_at_last_space hlen hsi hi400 hsp

/-- Witness for `chunkText_size_and_space_boundary`: on the 501-character
input of 200 `a`s, one space, and 300 `a`s, the window starting at 0 ends
exactly at the space (position 200). -/
theorem chunkText_size_and_space_boundary_witness :
    (['h', 'i'] : List Char).length ≤ 400 ∧
    chunkEnd (List.replicate 200 'a' ++ ' ' :: List.replicate 300 'a')
        400 0 = 200 := by
  constructor
  · exact (chunkText_size_and_space_boundary ['h', 'i']).1 ['h', 'i']
      (by decide)
  · have h := (chunkText_size_and_space_boundary
      (List.replicate 200 'a' ++ ' ' :: List.replicate 300 'a')).2 0 200
      (by decide) (by decide) (by decide) (by decide)
    have h200 : chunkEnd
        (List.replicate 200 'a' ++ ' ' :: List.replicate 300 'a') 400 0
        = 200 := by decide
    exact h200

/-- Counterexample to C5 as stated: with whitespace read as in the claim
(any `pyIsSpace` character), the code does not break at a whitespace
boundary.  On the 401-character input of 200 `a`s, a tab, and 200 `a`s,
a tab (whitespace) lies strictly inside the window `(0, 400)`, yet the
window ends at the full limit 400 and the emitted first chunk is the whole
400-character window, splitting the second run of `a`s mid-word. -/
theorem chunkText_tab_counterexample :
    pyIsSpace '\t' = true ∧
    (List.replicate 200 'a' ++ '\t' :: List.replicate 200 'a').get? 200 =
      some '\t' ∧
    0 + 400 <
      (List.replicate 200 'a' ++ '\t' :: List.replicate 200 'a').length ∧
    chunkEnd (List.replicate 200 'a' ++ '\t' :: List.replicate 200 'a')
      400 0 = 400 ∧
    (chunkText
        (List.replicate 200 'a' ++ '\t' :: List.replicate 200 'a')).get? 0 =
      some ((List.replicate 200 'a' ++ '\t' :: List.replicate 200 'a').take
        400) := by
  refine ⟨rfl, by decide, by decide, by decide, by decide⟩

/-- C9: the `chunk_text` loop terminates on every finite input: the start
position strictly increases on every iteration (`nextStart` exceeds
`start`), the loop performs at most `len(text)` iterations, and running the
loop with any iteration budget of at least `len(text)` yields the same
result (the loop has stopped). -/
theorem chunk_text_loop_terminates (t : List Char) (size overlap : Nat) :
    (∀ start : Nat, start < nextStart size overlap start) ∧
    chunkItersF t size overlap 0 t.length ≤ t.length ∧
    (∀ fuel : Nat, t.length ≤ fuel →
      chunkLoopF t size overlap 0 fuel = chunkLoop t size overlap 0) := by
  refine ⟨nextStart_gt size overlap, ?_, ?_⟩
  · have h := @chunkItersF_le t size overlap t.length 0
    omega
  · intro fuel hf
    exact chunkLoopF_eq_chunkLoop (by omega)

/-- Witness for `chunk_text_loop_terminates` at the one-character input
`"a"` with the configured 400/50 parameters. -/
theorem chunk_text_loop_terminates_witness :
    0 < nextStart 400 50 0 ∧
    chunkItersF ['a'] 400 50 0 1 ≤ 1 ∧
    chunkLoopF ['a'] 400 50 0 5 = chunkLoop ['a'] 400 50 0 :=
  ⟨(chunk_text_loop_terminates ['a'] 400 50).1 0,
   (chunk_text_loop_terminates ['a'] 400 50).2.1,
   (chunk_text_loop_terminates ['a'] 400 50).2.2 5 (by decide)⟩

/-- C10: every element of the list returned by `chunk_text` is a non-empty
string of length at most the chunk size: loop chunks that strip to empty
are dropped, and the fallback single chunk `text[:400]` is non-empty
because the guard ensures the text itself is non-empty. -/
theorem chunkText_elems_nonempty :
    ∀ (t : List Char) (c : List Char), c ∈ chunkText t →
      c ≠ [] ∧ c.length ≤ 400 := by
  intro t c hc
  unfold chunkText chunk_text at hc
  split at hc
  · simp at hc
  · rename_i hguard
    dsimp only at hc
    split at hc
    · simp only [List.mem_singleton] at hc
      subst hc
      constructor
      · intro hnil
        rw [List.take_eq_nil_iff] at hnil
        rcases hnil with h4 | hd
        · omega
        · subst hd
          exact hguard rfl
      · rw [List.length_take]
        exact Nat.min_le_left _ _
    · exact ⟨chunkLoopF_ne_nil c hc, chunkLoopF_length_le c hc⟩

/-- Witness for `chunkText_elems_nonempty` at the concrete input `"a"`,
whose single chunk is `"a"`. -/
theorem chunkText_elems_nonempty_witness :
    (['a'] : List Char) ≠ [] ∧ (['a'] : List Char).length ≤ 400 :=
  chunkText_elems_nonempty ['a'] ['a'] (by decide)

/-! ### Pipeline manager invariant -/

theorem PMInv_holds {s : PMState}
    (h : PMReachable s) :
    s.queue.Nodup ∧ ∀ id ∈ s.queue, s.active_jobs id = some JobStatus.queued := by
  induction h with
  | init => constructor <;> simp [initPM]
  | @step sa sb hr hstep ih =>
    obtain ⟨hnd, hq⟩ := ih
    cases hstep with
    | enqueue id h =>
      have hnotin : id ∉ sa.queue := by
        intro hin
        rw [hq id hin] at h
        cases h
      constructor
      · simp only [enqueueState]
        rw [List.nodup_append]
        refine ⟨hnd, List.nodup_singleton id, ?_⟩
        intro a ha hb
        simp only [List.mem_singleton] at hb
        subst hb
        exact hnotin ha
      · intro j hj
        simp only [enqueueState] at hj ⊢
        rcases List.mem_append.mp hj with hj | hj
        · have hne : j ≠ id := fun he => hnotin (he ▸ hj)
          rw [if_neg hne]
          exact hq j hj
        · simp only [List.mem_singleton] at hj
          subst hj
          simp
    | dequeue id rest h =>
      have hcons := hnd
      rw [h] at hcons
      constructor
      · exact (List.nodup_cons.mp hcons).2
      · intro j hj
        simp only [dequeueState] at hj ⊢
        have hjq : j ∈ sa.queue := by
          rw [h]
          exact List.mem_cons_of_mem _ hj
        have hne : j ≠ id := by
          intro he
          subst he
          exact (List.nodup_cons.mp hcons).1 hj
        rw [if_neg hne]
        exact hq j hjq
    | finish id success h =>
      constructor
      · exact hnd
      · intro j hj
        simp only [finishState] at hj ⊢
        have hne : j ≠ id := by
          intro he
          subst he
          rw [hq j hj] at h
          cases h
        rw [if_neg hne]
        exact hq j hj

/-! ### Claim theorems: storage, ids, pipeline, errors -/

/-- C1 (amended): `store_document_chunks` performs no dimensionality check:
every stored row's embedding vector is exactly the vector provided for its
chunk, unchanged — not coerced, padded, or rejected — whatever its
dimensionality.  A vector whose length differs from the configured 1536 is
silently stored (see `store_document_chunks_no_dim_check`); any mismatch
error could only come from the external database, not from this code. -/
theorem store_document_chunks_passthrough :
    ∀ (did : String) (chunks : List (List Char))
      (embeddings : List (List Float)),
      (store_document_chunks did chunks embeddings).map ChunkRecord.embedding
        = (chunks.zip embeddings).map Prod.snd ∧
      (∀ (i : Nat) (r : ChunkRecord),
        (store_document_chunks did chunks embeddings).get? i = some r →
        r.embedding ∈ embeddings ∧ r.document_id = did) := by
  intro did chunks embeddings
  constructor
  · unfold store_document_chunks
    rw [List.map_map]
    have h1 : ((chunks.zip embeddings).enum.map
        (ChunkRecord.embedding ∘ fun p =>
          ({ content := p.2.1, document_id := did, chunk_index := p.1,
             embedding := p.2.2 } : ChunkRecord)))
        = ((chunks.zip embeddings).enum.map Prod.snd).map Prod.snd := by
      rw [List.map_map]
      rfl
    rw [h1, List.enum_map_snd]
  · intro i r hr
    unfold store_document_chunks at hr
    rw [List.get?_eq_getElem?, List.getElem?_map] at hr
    cases he : (chunks.zip embeddings).enum[i]? with
    | none =>
      rw [he] at hr
      cases hr
    | some p =>
      rw [he] at hr
      obtain ⟨j, c, e⟩ := p
      injection hr with hr
      subst hr
      refine ⟨?_, rfl⟩
      have hp : (j, (c, e)) ∈ (chunks.zip embeddings).enum :=
        List.getElem?_mem he
      have hp2 : (c, e) ∈ chunks.zip embeddings := by
        rw [← List.enum_map_snd (chunks.zip embeddings)]
        exact List.mem_map_of_mem Prod.snd hp
      exact (List.of_mem_zip hp2).2

/-- Witness for `store_document_chunks_passthrough`: one chunk with a
2-dimensional embedding, stored verbatim. -/
theorem store_document_chunks_passthrough_witness :
    (({ content := ['a'], document_id := "d", chunk_index := 0,
        embedding := [(1.0 : Float), (2.0 : Float)] } : ChunkRecord).embedding
      ∈ [[(1.0 : Float), (2.0 : Float)]]) ∧
    ({ content := ['a'], document_id := "d", chunk_index := 0,
        embedding := [(1.0 : Float), (2.0 : Float)] } : ChunkRecord).document_id
      = "d" :=
  (store_document_chunks_passthrough "d" [['a']]
    [[(1.0 : Float), (2.0 : Float)]]).2 0 _ rfl

/-- Counterexample to C1 as stated: a chunk whose embedding has
dimensionality 2 (not the configured 1536) is accepted and stored unchanged
by `store_document_chunks` — one row is produced, with no error and no
coercion — so a dimensionality mismatch is not a hard error in this code. -/
theorem store_document_chunks_no_dim_check :
    (store_document_chunks "doc1" [['h', 'i']]
        [[(1.0 : Float), (2.0 : Float)]]).map
        (fun r => r.embedding.length) = [2] ∧
    (2 : Nat) ≠ vector_dimensions := by
  exact ⟨rfl, by decide⟩

/-- C2 (amended): `generate_document_id` is a function of the content hash,
the content type and the timestamp, so two runs over identical content and
metadata produce the same id only when their second-resolution timestamps
coincide; and within one `process_document` run, the deletion of existing
chunk rows for the generated id precedes every chunk insertion, so no
duplicates accumulate under that id.  Because the id embeds the call-time
timestamp, a rerun at a different second targets a fresh id and does not
delete the chunks stored under the earlier id (see the counterexample). -/
theorem process_document_id_and_dedup :
    ∀ (md5hex : List Char → List Char) (c c' : List Char)
      (ct : Option (List Char)) (ts extracted : List Char),
      (md5hex c = md5hex c' →
        generate_document_id md5hex c ct ts =
          generate_document_id md5hex c' ct ts) ∧
      (∀ (l1 l2 : List DbOp) (did : List Char) (n : Nat),
        (process_document_ops md5hex c ct ts extracted).1 =
          l1 ++ DbOp.insertChunks did n :: l2 →
        DbOp.deleteChunks did ∈ l1) := by
  intro md5hex c c' ct ts ex
  constructor
  · intro he
    unfold generate_document_id
    rw [he]
  · intro l1 l2 did n hops
    unfold process_document_ops at hops
    split at hops
    · dsimp only at hops
      cases l1 <;> simp at hops
    · dsimp only at hops
      split at hops
      · have hmem : DbOp.insertChunks did n ∈
            l1 ++ DbOp.insertChunks did n :: l2 :=
          List.mem_append_right l1 (List.mem_cons_self _ _)
        rw [← hops] at hmem
        simp at hmem
      · rcases l1 with _ | ⟨a, l1⟩
        · simp at hops
        rcases l1 with _ | ⟨b, l1⟩
        · simp at hops
        rcases l1 with _ | ⟨d, l1⟩
        · simp at hops
        rcases l1 with _ | ⟨f, l1⟩
        · simp only [List.cons_append, List.nil_append,
            List.cons.injEq] at hops
          obtain ⟨ha, hb, hd, hins, -⟩ := hops
          injection hins with h1 h2
          subst h1
          rw [ha]
          exact List.mem_cons_self _ _
        · simp only [List.cons_append, List.cons.injEq] at hops
          obtain ⟨-, -, -, -, hnil⟩ := hops
          cases l1 <;> simp at hnil

/-- Witness for `process_document_id_and_dedup`: two different contents
with the same digest get the same id, and in the operation list of a
concrete run the chunk deletion appears before the chunk insertion. -/
theorem process_document_id_and_dedup_witness :
    generate_document_id (fun _ => ['h', '8']) ['x'] none ['t', 's'] =
      generate_document_id (fun _ => ['h', '8']) ['y'] none ['t', 's'] ∧
    DbOp.deleteChunks
        (generate_document_id (fun _ => ['h', '8']) ['x'] none ['t', 's']) ∈
      [DbOp.deleteChunks
        (generate_document_id (fun _ => ['h', '8']) ['x'] none ['t', 's']),
       DbOp.deleteMetadata
        (generate_document_id (fun _ => ['h', '8']) ['x'] none ['t', 's']),
       DbOp.insertMetadata
        (generate_document_id (fun _ => ['h', '8']) ['x'] none ['t', 's'])] :=
  ⟨(process_document_id_and_dedup (fun _ => ['h', '8']) ['x'] ['y'] none
      ['t', 's'] ['a']).1 rfl,
   (process_document_id_and_dedup (fun _ => ['h', '8']) ['x'] ['y'] none
      ['t', 's'] ['a']).2
     [DbOp.deleteChunks
        (generate_document_id (fun _ => ['h', '8']) ['x'] none ['t', 's']),
      DbOp.deleteMetadata
        (generate_document_id (fun _ => ['h', '8']) ['x'] none ['t', 's']),
      DbOp.insertMetadata
        (generate_document_id (fun _ => ['h', '8']) ['x'] none ['t', 's'])]
     []
     (generate_document_id (fun _ => ['h', '8']) ['x'] none ['t', 's']) 1
     (by decide)⟩

/-- Counterexample to C2 as stated: identical content and metadata
processed at two different times receive different document ids, because
`generate_document_id` appends the call-time timestamp, so the second run
does not target the first run's id and the first run's chunks are not
deleted. -/
theorem generate_document_id_not_stable :
    generate_document_id (fun _ => ['a', 'b', 'c', 'd', 'e', 'f', '0', '1'])
        ['x'] none ['t', '1'] ≠
      generate_document_id (fun _ => ['a', 'b', 'c', 'd', 'e', 'f', '0', '1'])
        ['x'] none ['t', '2'] := by
  decide

/-- C6: on every reachable manager state, a job still in the queue (not yet
dequeued by a worker) reports status `queued`; when a worker finishes a job
it records `completed` or `failed`; and a job whose status is `completed`
or `failed` keeps exactly that status across every further step of the
pipeline manager. -/
theorem job_status_lifecycle :
    ∀ s : PMState, PMReachable s →
      (∀ id ∈ s.queue, (get_job_status s id).status = "queued") ∧
      (∀ (id : String) (success : Bool),
        (get_job_status (finishState s id success) id).status = "completed" ∨
        (get_job_status (finishState s id success) id).status = "failed") ∧
      (∀ (s' : PMState) (id : String) (st : JobStatus), PMStep s s' →
        s.active_jobs id = some st →
        (st = JobStatus.completed ∨ st = JobStatus.failed) →
        s'.active_jobs id = some st) := by
  intro s hreach
  have hinv := PMInv_holds hreach
  refine ⟨?_, ?_, ?_⟩
  · intro id hid
    unfold get_job_status
    rw [hinv.2 id hid]
    rfl
  · intro id success
    unfold get_job_status finishState
    simp only [if_pos rfl]
    cases success
    · right
      rfl
    · left
      rfl
  · intro s' id st hstep hst hterm
    cases hstep with
    | enqueue id' h =>
      simp only [enqueueState]
      have hne : id ≠ id' := by
        intro he
        subst he
        rw [hst] at h
        cases h
      rw [if_neg hne]
      exact hst
    | dequeue id' rest h =>
      simp only [dequeueState]
      have hid' : s.active_jobs id' = some JobStatus.queued :=
        hinv.2 id' (by rw [h]; exact List.mem_cons_self _ _)
      have hne : id ≠ id' := by
        intro he
        subst he
        rw [hst] at hid'
        injection hid' with hh
        rcases hterm with h1 | h1 <;> (subst h1; simp at hh)
      rw [if_neg hne]
      exact hst
    | finish id' success h =>
      simp only [finishState]
      have hne : id ≠ id' := by
        intro he
        subst he
        rw [hst] at h
        injection h with hh
        rcases hterm with h1 | h1 <;> (subst h1; simp at hh)
      rw [if_neg hne]
      exact hst

/-- Witness for `job_status_lifecycle`: a concrete run — enqueue `job-a`,
query it as `queued`, dequeue it, finish it successfully, then take one
more step (enqueue `job-b`) — after which `job-a` still reads
`completed`. -/
theorem job_status_lifecycle_witness :
    (get_job_status (enqueueState initPM "job-a") "job-a").status =
      "queued" ∧
    (enqueueState
        (finishState (dequeueState (enqueueState initPM "job-a") "job-a" [])
          "job-a" true) "job-b").active_jobs "job-a" =
      some JobStatus.completed := by
  have h1 : PMReachable (enqueueState initPM "job-a") :=
    PMReachable.step PMReachable.init (PMStep.enqueue initPM "job-a" rfl)
  have h2 : PMReachable
      (dequeueState (enqueueState initPM "job-a") "job-a" []) :=
    PMReachable.step h1 (PMStep.dequeue _ "job-a" [] (by decide))
  have h3 : PMReachable
      (finishState (dequeueState (enqueueState initPM "job-a") "job-a" [])
        "job-a" true) :=
    PMReachable.step h2 (PMStep.finish _ "job-a" true (by decide))
  refine ⟨(job_status_lifecycle _ h1).1 "job-a" (by decide), ?_⟩
  exact (job_status_lifecycle _ h3).2.2 _ "job-a" JobStatus.completed
    (PMStep.enqueue _ "job-b" (by decide)) (by decide) (Or.inl rfl)

/-- C7: when the embedding provider call fails, `create_embeddings` does
not raise: it returns one placeholder vector per input text, each of the
configured dimensionality 1536, and logs the fallback warning, so
downstream storage receives a full batch. -/
theorem create_embeddings_fallback :
    ∀ (provider : List String → Option (List (List Float)))
      (rng : Nat → Nat → Float) (texts : List String),
      provider texts = none →
      (create_embeddings provider rng texts).1.length = texts.length ∧
      (∀ v ∈ (create_embeddings provider rng texts).1,
        v.length = vector_dimensions) ∧
      (create_embeddings provider rng texts).2 = true := by
  intro provider rng texts hfail
  unfold create_embeddings
  rw [hfail]
  refine ⟨by simp, ?_, rfl⟩
  intro v hv
  simp only at hv
  obtain ⟨i, _, hvi⟩ := List.mem_map.mp hv
  subst hvi
  simp

/-- Witness for `create_embeddings_fallback`: a failing provider and a
one-element batch yield one placeholder vector and the warning flag. -/
theorem create_embeddings_fallback_witness :
    (create_embeddings (fun _ => none) (fun _ _ => (0 : Float))
      ["a"]).1.length = 1 ∧
    (create_embeddings (fun _ => none) (fun _ _ => (0 : Float)) ["a"]).2 =
      true :=
  ⟨(create_embeddings_fallback (fun _ => none) (fun _ _ => (0 : Float))
      ["a"] rfl).1,
   (create_embeddings_fallback (fun _ => none) (fun _ _ => (0 : Float))
      ["a"] rfl).2.2⟩

/-- C8: looking up a job id absent from the manager's job map returns a
result whose status field is `"not_found"` (and whose id echoes the query),
rather than raising. -/
theorem get_job_status_not_found :
    ∀ (s : PMState) (job_id : String), s.active_jobs job_id = none →
      (get_job_status s job_id).status = "not_found" ∧
      (get_job_status s job_id).id = job_id := by
  intro s jid h
  unfold get_job_status
  rw [h]
  exact ⟨rfl, rfl⟩

/-- Witness for `get_job_status_not_found` on the initial state and the id
`"missing"`. -/
theorem get_job_status_not_found_witness :
    (get_job_status initPM "missing").status = "not_found" ∧
    (get_job_status initPM "missing").id = "missing" :=
  get_job_status_not_found initPM "missing" rfl
